import Mathlib

set_option maxHeartbeats 1000000
set_option maxRecDepth 4000

/-!
Shallow embedding of the carapace-shlex tokenizer (shlex.go).

Go machine integers are embedded as `Nat`.  The Go types `TokenType` and
`LexerState` are `int`s in the source, so they are embedded as `Nat` with the
named constants below (this keeps the `default:` branches of the source's
`switch` statements representable, exactly as in the Go code).  The input
stream is a `List Char` (Go reads runes one at a time from a
`strings.Reader`); the one-rune pushback of `UnreadRune` is modelled by
returning the remaining input with the pushed-back rune re-prepended.
`io.EOF` from `Lexer.Next`/`Tokenizer.Next` is modelled as `Except.ok none`;
all other Go `error` returns are `Except.error`.
-/

/-- Go `runeTokenClass` (shlex.go, "Classes of rune token"). -/
inductive runeTokenClass where
  | unknownRuneClass
  | spaceRuneClass
  | escapingQuoteRuneClass
  | nonEscapingQuoteRuneClass
  | escapeRuneClass
  | commentRuneClass
  | pipelineRuneClass
  | eofRuneClass
deriving DecidableEq, Repr

open runeTokenClass

/-- Go `UNKNOWN_TOKEN` (TokenType iota 0). -/
abbrev UNKNOWN_TOKEN : Nat := 0
/-- Go `WORD_TOKEN`. -/
abbrev WORD_TOKEN : Nat := 1
/-- Go `SPACE_TOKEN`. -/
abbrev SPACE_TOKEN : Nat := 2
/-- Go `COMMENT_TOKEN`. -/
abbrev COMMENT_TOKEN : Nat := 3
/-- Go `PIPELINE_TOKEN`. -/
abbrev PIPELINE_TOKEN : Nat := 4

/-- Go `START_STATE` (LexerState iota 0). -/
abbrev START_STATE : Nat := 0
/-- Go `IN_WORD_STATE`. -/
abbrev IN_WORD_STATE : Nat := 1
/-- Go `ESCAPING_STATE`. -/
abbrev ESCAPING_STATE : Nat := 2
/-- Go `ESCAPING_QUOTED_STATE`. -/
abbrev ESCAPING_QUOTED_STATE : Nat := 3
/-- Go `QUOTING_ESCAPING_STATE`. -/
abbrev QUOTING_ESCAPING_STATE : Nat := 4
/-- Go `QUOTING_STATE`. -/
abbrev QUOTING_STATE : Nat := 5
/-- Go `COMMENT_STATE`. -/
abbrev COMMENT_STATE : Nat := 6
/-- Go `PIPELINE_STATE`. -/
abbrev PIPELINE_STATE : Nat := 7

/-- Go `tokenClassifier.ClassifyRune` for the classifier built by
`newDefaultClassifier`: the map sends each rune of `spaceRunes` (" \t\r\n"),
`escapingQuoteRunes`, `nonEscapingQuoteRunes` (the single quote),
`escapeRunes` (the backslash), `commentRunes` and `pipelineRunes` ("|&;") to
its class; every unmapped rune yields the zero value `unknownRuneClass`.
`eofRuneClass` is never produced for a real rune (it is assigned only on
`io.EOF` inside `scanStream`). -/
def classifyRune (c : Char) : runeTokenClass :=
  if c = ' ' ∨ c = '\t' ∨ c = '\r' ∨ c = '\n' then spaceRuneClass
  else if c = '"' then escapingQuoteRuneClass
  else if c = Char.ofNat 39 then nonEscapingQuoteRuneClass
  else if c = '\\' then escapeRuneClass
  else if c = '#' then commentRuneClass
  else if c = '|' ∨ c = '&' ∨ c = ';' then pipelineRuneClass
  else unknownRuneClass

/-- Go `Token`.  The Go field `Type` is renamed `type` (`Type` is a Lean
keyword); the remaining field names match the source. -/
structure Token where
  type : Nat
  Value : List Char
  RawValue : List Char
  Index : Nat
  State : Nat
deriving DecidableEq, Repr

/-- Go `Token.add`: appends a rune to the decoded value. -/
def Token.add (t : Token) (r : Char) : Token :=
  { t with Value := t.Value ++ [r] }

/-- Go `Token.removeLastRaw`: drops the last rune of `RawValue`. -/
def Token.removeLastRaw (t : Token) : Token :=
  { t with RawValue := t.RawValue.dropLast }

/-- The Go error values produced by this package: the
`fmt.Errorf("unexpected state: %v", ...)` defect branch of
`Tokenizer.scanStream` and the `fmt.Errorf("unknown token type: %v", ...)`
defect branch of `Lexer.Next`.  A read failure cannot occur for an in-memory
`strings.Reader`, so it has no constructor here. -/
inductive ScanError where
  | unexpectedState (s : Nat)
  | unknownTokenType (t : Nat)
deriving DecidableEq, Repr

/-- Result of one `Tokenizer.scanStream` / `Tokenizer.Next` call:
`none` is Go's `(nil, io.EOF)`; `some (tok, rest, index, state)` is a returned
token together with the remaining input (after any `UnreadRune` pushback),
the updated rune index `t.index`, and the machine state `t.state` at return. -/
abbrev ScanResult := Option (Token × List Char × Nat × Nat)

/-- The `for` loop body of Go `Tokenizer.scanStream`, one iteration per input
rune.  Parameters mirror the Go locals: `previousState` (saved `t.state`),
`state` (current `t.state`), `tok` (the token under construction), `consumed`,
`index` (`t.index`), and the remaining input.  An empty input list is the
`io.EOF` read: Go's `ReadRune` then yields the zero rune (appended to
`RawValue` before the error check, hence the `Char.ofNat 0`) and leaves
`t.index` unchanged. -/
def scanLoop (previousState : Nat) :
    Nat → Token → Nat → Nat → List Char → Except ScanError ScanResult
  | state, tok, consumed, index, [] =>
    let tok1 := { tok with RawValue := tok.RawValue ++ [Char.ofNat 0] }
    let consumed1 := consumed + 1
    match state with
    | 0 => -- START_STATE; eofRuneClass ≠ spaceRuneClass, so Index is written
      let tok2 := { tok1 with Index := index - 1 }
      if previousState = 7 ∨ 1 < consumed1 then
        .ok (some ({ tok2.removeLastRaw with type := 1, Index := index },
          [], index, 0))
      else
        .ok none
    | 7 => .ok (some (tok1.removeLastRaw, [], index, 7)) -- PIPELINE_STATE
    | 1 => .ok (some (tok1.removeLastRaw, [], index, 1)) -- IN_WORD_STATE
    | 2 => .ok (some (tok1.removeLastRaw, [], index, 2)) -- ESCAPING_STATE
    | 3 => .ok (some (tok1.removeLastRaw, [], index, 3)) -- ESCAPING_QUOTED
    | 4 => .ok (some (tok1.removeLastRaw, [], index, 4)) -- QUOTING_ESCAPING
    | 5 => .ok (some (tok1.removeLastRaw, [], index, 5)) -- QUOTING_STATE
    | 6 => .ok (some (tok1, [], index, 6)) -- COMMENT_STATE keeps the raw EOF rune
    | s => .error (.unexpectedState s)
  | state, tok, consumed, index, c :: rest =>
    let cls := classifyRune c
    let tok1 := { tok with RawValue := tok.RawValue ++ [c] }
    let consumed1 := consumed + 1
    let index1 := index + 1
    match state with
    | 0 => -- START_STATE
      let tok2 := if cls ≠ spaceRuneClass then { tok1 with Index := index1 - 1 } else tok1
      match cls with
      | spaceRuneClass =>
        scanLoop previousState 0 tok2.removeLastRaw consumed1 index1 rest
      | escapingQuoteRuneClass =>
        scanLoop previousState 4 { tok2 with type := 1 } consumed1 index1 rest
      | nonEscapingQuoteRuneClass =>
        scanLoop previousState 5 { tok2 with type := 1 } consumed1 index1 rest
      | escapeRuneClass =>
        scanLoop previousState 2 { tok2 with type := 1 } consumed1 index1 rest
      | commentRuneClass =>
        scanLoop previousState 6 { tok2 with type := 3 } consumed1 index1 rest
      | pipelineRuneClass =>
        scanLoop previousState 7 (Token.add { tok2 with type := 4 } c) consumed1 index1 rest
      | _ =>
        scanLoop previousState 1 (Token.add { tok2 with type := 1 } c) consumed1 index1 rest
    | 7 => -- PIPELINE_STATE
      match cls with
      | pipelineRuneClass => scanLoop previousState 7 (tok1.add c) consumed1 index1 rest
      | _ => .ok (some (tok1.removeLastRaw, c :: rest, index1 - 1, 7))
    | 1 => -- IN_WORD_STATE
      match cls with
      | pipelineRuneClass => .ok (some (tok1.removeLastRaw, c :: rest, index1 - 1, 1))
      | spaceRuneClass => .ok (some (tok1.removeLastRaw, c :: rest, index1 - 1, 1))
      | escapingQuoteRuneClass => scanLoop previousState 4 tok1 consumed1 index1 rest
      | nonEscapingQuoteRuneClass => scanLoop previousState 5 tok1 consumed1 index1 rest
      | escapeRuneClass => scanLoop previousState 2 tok1 consumed1 index1 rest
      | _ => scanLoop previousState 1 (tok1.add c) consumed1 index1 rest
    | 2 => -- ESCAPING_STATE: any rune is literal
      scanLoop previousState 1 (tok1.add c) consumed1 index1 rest
    | 3 => -- ESCAPING_QUOTED_STATE: any rune is literal
      scanLoop previousState 4 (tok1.add c) consumed1 index1 rest
    | 4 => -- QUOTING_ESCAPING_STATE
      match cls with
      | escapingQuoteRuneClass => scanLoop previousState 1 tok1 consumed1 index1 rest
      | escapeRuneClass => scanLoop previousState 3 tok1 consumed1 index1 rest
      | _ => scanLoop previousState 4 (tok1.add c) consumed1 index1 rest
    | 5 => -- QUOTING_STATE
      match cls with
      | nonEscapingQuoteRuneClass => scanLoop previousState 1 tok1 consumed1 index1 rest
      | _ => scanLoop previousState 5 (tok1.add c) consumed1 index1 rest
    | 6 => -- COMMENT_STATE
      match cls with
      | spaceRuneClass =>
        if c = '\n' then .ok (some (tok1.removeLastRaw, rest, index1, 0))
        else scanLoop previousState 6 (tok1.add c) consumed1 index1 rest
      | _ => scanLoop previousState 6 (tok1.add c) consumed1 index1 rest
    | s => .error (.unexpectedState s)

/-- Go `Tokenizer.scanStream`: saves `previousState := t.state`, resets
`t.state` to `START_STATE`, starts from a zero-valued `Token` and
`consumed = 0`, and runs the scan loop. -/
def scanStream (previousState index : Nat) (input : List Char) :
    Except ScanError ScanResult :=
  scanLoop previousState 0 ⟨0, [], [], 0, 0⟩ 0 index input

/-- Go `Tokenizer.Next`: on success stores the final machine state into
`token.State`. -/
def tokenizerNext (previousState index : Nat) (input : List Char) :
    Except ScanError ScanResult :=
  match scanStream previousState index input with
  | .ok (some (tok, rest, index1, state)) =>
    .ok (some ({ tok with State := state }, rest, index1, state))
  | r => r

/-- Decidable equality for `Except`, used to evaluate the embedded functions
on concrete inputs. -/
instance {ε α : Type _} [DecidableEq ε] [DecidableEq α] : DecidableEq (Except ε α) := fun x y =>
  match x, y with
  | .ok a, .ok b => if h : a = b then .isTrue (by rw [h]) else .isFalse (by simp [h])
  | .error a, .error b => if h : a = b then .isTrue (by rw [h]) else .isFalse (by simp [h])
  | .ok _, .error _ => .isFalse (by simp)
  | .error _, .ok _ => .isFalse (by simp)

/-! Termination facts for the token-collection loop: a successful scan never
returns more input than it was given, and a scan over nonempty input returns
strictly less (the `START_STATE` dispatch always consumes its first rune). -/

theorem scanLoop_rest_le (prev : Nat) (input : List Char) :
    ∀ (state : Nat) (tok : Token) (co idx : Nat) (t : Token) (rest : List Char) (i st : Nat),
    scanLoop prev state tok co idx input = .ok (some (t, rest, i, st)) →
    rest.length ≤ input.length := by
  induction input with
  | nil =>
    intro state tok co idx t rest i st h
    simp only [scanLoop] at h
    split at h <;> first
      | (split at h <;> simp_all)
      | simp_all
  | cons c cs ih =>
    intro state tok co idx t rest i st h
    simp only [scanLoop] at h
    split at h <;>
      first
        | exact Nat.le_succ_of_le (ih _ _ _ _ _ _ _ _ h)
        | (split at h <;>
            first
              | exact Nat.le_succ_of_le (ih _ _ _ _ _ _ _ _ h)
              | (split at h <;>
                  first
                    | exact Nat.le_succ_of_le (ih _ _ _ _ _ _ _ _ h)
                    | (simp_all; omega)
                    | simp_all)
              | (simp_all; omega)
              | simp_all)
        | (simp_all; omega)
        | simp_all

theorem tokenizerNext_nil (prev idx : Nat) :
    tokenizerNext prev idx [] =
      .ok (if prev = 7 then some (⟨1, [], [], idx, 0⟩, [], idx, 0) else none) := by
  by_cases hp : prev = 7 <;>
    simp [tokenizerNext, scanStream, scanLoop, Token.removeLastRaw, hp]

theorem tokenizerNext_rest_lt (prev idx : Nat) (c : Char) (cs : List Char)
    (t : Token) (rest : List Char) (i st : Nat)
    (h : tokenizerNext prev idx (c :: cs) = .ok (some (t, rest, i, st))) :
    rest.length < (c :: cs).length := by
  simp only [tokenizerNext] at h
  split at h
  · rename_i tok rest2 i2 st2 heq
    simp only [Except.ok.injEq, Option.some.injEq, Prod.mk.injEq] at h
    obtain ⟨-, hrest, -⟩ := h
    subst hrest
    simp only [scanStream, scanLoop] at heq
    split at heq <;>
      exact Nat.lt_succ_of_le (scanLoop_rest_le _ _ _ _ _ _ _ _ _ _ heq)
  · rename_i r heq
    exact absurd h (heq t rest i st)

/-- Go `Lexer.Next` fused with the collection loop of Go `Split`: pull the
next token, return word/pipeline tokens, silently skip comment tokens, fail
on any other token type (`fmt.Errorf("unknown token type: %v", ...)`), and
stop at `io.EOF`. -/
def splitLoop (previousState index : Nat) (input : List Char) :
    Except ScanError (List Token) :=
  match h : tokenizerNext previousState index input with
  | .error e => .error e
  | .ok none => .ok []
  | .ok (some (tok, rest, index1, state)) =>
    if tok.type = 1 ∨ tok.type = 4 then
      match splitLoop state index1 rest with
      | .ok ts => .ok (tok :: ts)
      | .error e => .error e
    else if tok.type = 3 then
      splitLoop state index1 rest
    else
      .error (.unknownTokenType tok.type)
termination_by 2 * input.length + (if previousState = 7 then 1 else 0)
decreasing_by
  all_goals
    cases input with
    | nil =>
      rw [tokenizerNext_nil] at h
      split at h <;> simp_all <;> omega
    | cons c cs =>
      have := tokenizerNext_rest_lt _ _ _ _ _ _ _ _ h
      simp only [List.length_cons] at *
      split <;> split <;> omega

/-- Go `Split`: tokenize a whole string with a fresh `Lexer` (initial state
`START_STATE`, rune index 0) over a `strings.Reader`. -/
def Split (s : String) : Except ScanError (List Token) :=
  splitLoop 0 0 s.toList

/-- Go `Tokens.Strings`: project to decoded values. -/
def Strings (ts : List Token) : List String := ts.map fun t => String.mk t.Value

/-- Go `Tokens.CurrentPipeline`: scanning left to right, a pipeline token
resets the accumulator, every other token is appended. -/
def CurrentPipeline (ts : List Token) : List Token :=
  ts.foldl (fun tokens token => if token.type = 4 then [] else tokens ++ [token]) []

/-- Modelled from the spec: `words()` — "retain only Word-kind tokens,
dropping PipelineOperator tokens" (§4.4).  The function itself is not part of
the sources under `src/`. -/
def Words (ts : List Token) : List Token := ts.filter fun t => t.type == 1

/-- A character the default classifier treats as special, i.e. as
space/quote/escape/comment/pipeline rather than as an ordinary rune. -/
def isSpecialChar (c : Char) : Bool := classifyRune c != unknownRuneClass

/-- Modelled from the spec: the per-word step of `join` — a word is "quoted
or escaped only if it contains characters that the Classifier would treat as
space/quote/escape/comment/pipeline, otherwise emitted bare" (§4.4).  The
single-quote wrapping realizes the unspecified quoting mechanism; the claims
proved below exercise only the bare branch. -/
def joinEncode (w : String) : String :=
  if w.toList.any isSpecialChar then
    String.mk (Char.ofNat 39 :: (w.toList ++ [Char.ofNat 39]))
  else w

/-- Modelled from the spec: `join(words)` — encode each word, "words are
separated by a single space" (§4.4).  Not part of the sources under `src/`. -/
def Join : List String → String
  | [] => ""
  | [w] => joinEncode w
  | w :: ws => joinEncode w ++ " " ++ Join ws

/-- `Bool` test for a non-whitespace character, following the classifier. -/
def notSpaceChar (c : Char) : Bool := classifyRune c != spaceRuneClass

/-- `Bool` test for a whitespace-class character. -/
def spaceClassChar (c : Char) : Bool := classifyRune c == spaceRuneClass

/-- `Bool` test for an ordinary (unknown-class) character. -/
def otherClassChar (c : Char) : Bool := classifyRune c == unknownRuneClass

/-- A character that is plain for the tokenizer: whitespace or an ordinary
(unknown-class) rune — not a quote, escape, comment or pipeline character. -/
def plainOrSpace (c : Char) : Bool :=
  classifyRune c == spaceRuneClass || classifyRune c == unknownRuneClass

theorem length_dropWhile_le {α : Type _} (p : α → Bool) (l : List α) :
    (l.dropWhile p).length ≤ l.length := by
  have h := congrArg List.length (List.takeWhile_append_dropWhile p l)
  simp only [List.length_append] at h
  omega

/-- Modelled from the spec: "`s` split on runs of whitespace, with empty
strings removed" (§8) — the reference side of the plain-input law.  A maximal
run of non-space characters becomes one word; whitespace is discarded. -/
def wsSplit : List Char → List (List Char)
  | [] => []
  | c :: rest =>
    if notSpaceChar c then
      (c :: rest.takeWhile notSpaceChar) :: wsSplit (rest.dropWhile notSpaceChar)
    else wsSplit rest
termination_by cs => cs.length
decreasing_by
  · exact Nat.lt_succ_of_le (length_dropWhile_le _ _)
  · simp

/-- Whether the input ends in a whitespace-class character ("ends in an
unterminated delimiter context" for inputs without quotes or escapes). -/
def endsInSpace (cs : List Char) : Bool :=
  match cs.getLast? with
  | some c => classifyRune c == spaceRuneClass
  | none => false

/-! Lemma layer: invariants of the scan loop, characterizations of the
derived views, and the behaviour of the tokenizer on restricted alphabets. -/

theorem classifyRune_ne_eof (c : Char) : classifyRune c ≠ eofRuneClass := by
  unfold classifyRune
  repeat' split
  all_goals simp

theorem removeLastRaw_rawAppend (t : Token) (c : Char) :
    Token.removeLastRaw { t with RawValue := t.RawValue ++ [c] } = t := by
  cases t
  simp [Token.removeLastRaw]

theorem scanLoop_no_error (prev : Nat) (input : List Char) :
    ∀ (state : Nat) (tok : Token) (co idx : Nat) (e : ScanError),
    scanLoop prev state tok co idx input = .error e → state ≤ 7 → False := by
  induction input with
  | nil =>
    intro state tok co idx e h hs
    interval_cases state <;> simp only [scanLoop] at h <;> (try split at h) <;> simp_all
  | cons c cs ih =>
    intro state tok co idx e h hs
    interval_cases state <;>
      cases hcls : classifyRune c <;>
      (try exact absurd hcls (classifyRune_ne_eof c)) <;>
      simp only [scanLoop, hcls] at h <;>
      (try split at h) <;>
      first
        | exact ih _ _ _ _ _ h (by omega)
        | simp_all

theorem scanLoop_nonstart (prev : Nat) (input : List Char) :
    ∀ (state : Nat) (tok : Token) (co idx : Nat) (t : Token) (rest : List Char) (i st : Nat),
    scanLoop prev state tok co idx input = .ok (some (t, rest, i, st)) →
    1 ≤ state → state ≤ 7 →
    t.type = tok.type ∧ t.Index = tok.Index ∧ t.State = tok.State ∧
      st ≤ 7 ∧ i + rest.length = idx + input.length ∧ rest.length ≤ input.length := by
  induction input with
  | nil =>
    intro state tok co idx t rest i st h h1 h7
    interval_cases state <;>
      simp only [scanLoop] at h <;>
      simp only [Except.ok.injEq, Option.some.injEq, Prod.mk.injEq] at h <;>
      obtain ⟨ht, hrest, hi, hst⟩ := h <;>
      subst ht <;> subst hrest <;> subst hi <;> subst hst <;>
      simp [Token.removeLastRaw]
  | cons c cs ih =>
    intro state tok co idx t rest i st h h1 h7
    interval_cases state <;>
      cases hcls : classifyRune c <;>
      (try exact absurd hcls (classifyRune_ne_eof c)) <;>
      simp only [scanLoop, hcls] at h <;>
      (try split at h) <;>
      first
        | (obtain ⟨ht, hidx, hstate, hst, hlen, hle⟩ := ih _ _ _ _ _ _ _ _ h (by omega) (by omega)
           exact ⟨ht, hidx, hstate, hst,
             by simp only [List.length_cons]; omega,
             by simp only [List.length_cons]; omega⟩)
        | (simp only [Except.ok.injEq, Option.some.injEq, Prod.mk.injEq] at h
           obtain ⟨ht, hrest, hi, hst⟩ := h
           subst ht; subst hrest; subst hi; subst hst
           refine ⟨rfl, rfl, rfl, by omega, ?_, ?_⟩ <;>
             simp only [List.length_cons] <;> omega)


theorem scanLoop_start (prev : Nat) (input : List Char) :
    ∀ (tok : Token) (co idx : Nat) (t : Token) (rest : List Char) (i st : Nat),
    scanLoop prev 0 tok co idx input = .ok (some (t, rest, i, st)) →
    (t.type = 1 ∨ t.type = 3 ∨ t.type = 4) ∧ st ≤ 7 ∧
    t.Index = idx + (input.takeWhile spaceClassChar).length ∧
    i + rest.length = idx + input.length ∧
    (rest.length + (input.takeWhile spaceClassChar).length < input.length ∨
      (rest = [] ∧ st = 0 ∧ t.type = 1 ∧
        (input.takeWhile spaceClassChar).length = input.length)) := by
  induction input with
  | nil =>
    intro tok co idx t rest i st h
    simp only [scanLoop] at h
    split at h
    · simp only [Except.ok.injEq, Option.some.injEq, Prod.mk.injEq] at h
      obtain ⟨ht, hrest, hi, hst⟩ := h
      subst ht; subst hrest; subst hi; subst hst
      refine ⟨Or.inl rfl, by omega, by simp, by simp, Or.inr ⟨rfl, rfl, rfl, rfl⟩⟩
    · simp at h
  | cons c cs ih =>
    intro tok co idx t rest i st h
    have htwp : spaceClassChar c = true →
        (c :: cs).takeWhile spaceClassChar = c :: cs.takeWhile spaceClassChar := by
      intro hb; simp [List.takeWhile_cons, hb]
    have htwn : spaceClassChar c = false →
        (c :: cs).takeWhile spaceClassChar = [] := by
      intro hb; simp [List.takeWhile_cons, hb]
    cases hcls : classifyRune c
    case eofRuneClass => exact absurd hcls (classifyRune_ne_eof c)
    case spaceRuneClass =>
      simp only [scanLoop, hcls, ne_eq, not_true_eq_false, if_false, ite_false,
        removeLastRaw_rawAppend] at h
      obtain ⟨h1, h2, h3, h4, h5⟩ := ih _ _ _ _ _ _ _ h
      rw [htwp (by simp [spaceClassChar, hcls])]
      simp only [List.length_cons]
      refine ⟨h1, h2, by omega, by omega, ?_⟩
      rcases h5 with h5 | ⟨hr, hs, hty1, hl⟩
      · exact Or.inl (by omega)
      · exact Or.inr ⟨hr, hs, hty1, by omega⟩
    all_goals (
      rw [htwn (by simp [spaceClassChar, hcls])]
      simp only [List.length_nil, Nat.add_zero, List.length_cons]
      simp [scanLoop, hcls] at h
      obtain ⟨ht, hidx, hstate, hst, hlen, hle⟩ :=
        scanLoop_nonstart prev cs _ _ _ _ _ _ _ _ h (by omega) (by omega)
      simp [Token.add] at ht hidx
      exact ⟨by omega, hst, by omega, by omega, Or.inl (by omega)⟩)

theorem tokenizerNext_index (prev idx : Nat) (input : List Char)
    (t : Token) (rest : List Char) (i st : Nat)
    (h : tokenizerNext prev idx input = .ok (some (t, rest, i, st))) :
    t.Index = idx + (input.takeWhile spaceClassChar).length := by
  simp only [tokenizerNext] at h
  split at h
  · rename_i tok rest2 i2 st2 heq
    simp only [Except.ok.injEq, Option.some.injEq, Prod.mk.injEq] at h
    obtain ⟨ht, -, -, -⟩ := h
    subst ht
    exact (scanLoop_start prev input _ _ _ _ _ _ _ heq).2.2.1
  · rename_i r heq
    exact absurd h (heq t rest i st)

theorem tokenizerNext_cases (prev idx : Nat) (input : List Char) :
    tokenizerNext prev idx input = .ok none ∨
    ∃ t rest i st, tokenizerNext prev idx input = .ok (some (t, rest, i, st)) ∧
      (t.type = 1 ∨ t.type = 3 ∨ t.type = 4) ∧ st ≤ 7 ∧
      t.Index = idx + (input.takeWhile spaceClassChar).length ∧
      i + rest.length = idx + input.length ∧
      (rest.length + (input.takeWhile spaceClassChar).length < input.length ∨
        (rest = [] ∧ st = 0 ∧ t.type = 1 ∧
          (input.takeWhile spaceClassChar).length = input.length)) := by
  cases hscan : scanStream prev idx input with
  | error e =>
    exact absurd hscan (fun hh =>
      scanLoop_no_error prev input 0 _ 0 idx e hh (by omega))
  | ok r =>
    cases r with
    | none =>
      left
      simp only [tokenizerNext, hscan]
    | some q =>
      obtain ⟨tok, rest, i, st⟩ := q
      obtain ⟨hty, hst, hIdx, hlen, hprog⟩ :=
        scanLoop_start prev input _ _ _ _ _ _ _ hscan
      right
      refine ⟨{ tok with State := st }, rest, i, st, ?_, hty, hst, hIdx, hlen, hprog⟩
      simp only [tokenizerNext, hscan]

theorem splitLoop_stop (prev idx : Nat) (input : List Char)
    (h : tokenizerNext prev idx input = .ok none) :
    splitLoop prev idx input = .ok [] := by
  rw [splitLoop]
  split <;> simp_all

theorem splitLoop_emit (prev idx : Nat) (input : List Char) (t : Token)
    (rest : List Char) (i st : Nat)
    (h : tokenizerNext prev idx input = .ok (some (t, rest, i, st)))
    (ht : t.type = 1 ∨ t.type = 4) :
    splitLoop prev idx input =
      match splitLoop st i rest with
      | .ok ts => .ok (t :: ts)
      | .error e => .error e := by
  rw [splitLoop]
  split
  · simp_all
  · simp_all
  · rename_i tok rest2 i2 st2 heq
    rw [h] at heq
    simp only [Except.ok.injEq, Option.some.injEq, Prod.mk.injEq] at heq
    obtain ⟨h1, h2, h3, h4⟩ := heq
    subst h1; subst h2; subst h3; subst h4
    rw [if_pos ht]

theorem splitLoop_skip (prev idx : Nat) (input : List Char) (t : Token)
    (rest : List Char) (i st : Nat)
    (h : tokenizerNext prev idx input = .ok (some (t, rest, i, st)))
    (ht : t.type = 3) :
    splitLoop prev idx input = splitLoop st i rest := by
  rw [splitLoop]
  split
  · simp_all
  · simp_all
  · rename_i tok rest2 i2 st2 heq
    rw [h] at heq
    simp only [Except.ok.injEq, Option.some.injEq, Prod.mk.injEq] at heq
    obtain ⟨h1, h2, h3, h4⟩ := heq
    subst h1; subst h2; subst h3; subst h4
    rw [if_neg (by simp [ht]), if_pos ht]

theorem splitLoop_sound : ∀ (n : Nat) (input : List Char), input.length ≤ n →
    ∀ (prev idx : Nat),
    ∃ ts, splitLoop prev idx input = .ok ts ∧
      (∀ t ∈ ts, t.type = 1 ∨ t.type = 4) ∧
      (∀ t ∈ ts, idx ≤ t.Index) ∧
      (ts.map Token.Index).Pairwise (· < ·) := by
  intro n
  induction n with
  | zero =>
    intro input hlen prev idx
    have hnil : input = [] := List.length_eq_zero.mp (by omega)
    subst hnil
    rcases tokenizerNext_cases prev idx [] with hnone |
      ⟨t, rest, i, st, heq, hty, hst, hIdx, hlen2, hprog⟩
    · exact ⟨[], splitLoop_stop _ _ _ hnone, by simp, by simp, by simp⟩
    · rcases hprog with hlt | ⟨hrest, hst0, hty1, htw⟩
      · simp at hlt
      · subst hrest; subst hst0
        have hnil2 : splitLoop 0 i [] = .ok [] :=
          splitLoop_stop _ _ _ (by rw [tokenizerNext_nil]; simp)
        refine ⟨[t], ?_, ?_, ?_, by simp⟩
        · rw [splitLoop_emit _ _ _ _ _ _ _ heq (Or.inl hty1), hnil2]
        · intro u hu; simp at hu; subst hu; exact Or.inl hty1
        · intro u hu; simp at hu; subst hu; simp at hIdx; omega
  | succ n ih =>
    intro input hlen prev idx
    rcases tokenizerNext_cases prev idx input with hnone |
      ⟨t, rest, i, st, heq, hty, hst, hIdx, hlen2, hprog⟩
    · exact ⟨[], splitLoop_stop _ _ _ hnone, by simp, by simp, by simp⟩
    · rcases hprog with hlt | ⟨hrest, hst0, hty1, htw⟩
      · have hrle : rest.length ≤ n := by omega
        obtain ⟨ts, hts, hty2, hidx2, hpair⟩ := ih rest hrle st i
        by_cases h3 : t.type = 3
        · refine ⟨ts, ?_, hty2, ?_, hpair⟩
          · rw [splitLoop_skip _ _ _ _ _ _ _ heq h3]; exact hts
          · intro u hu
            have := hidx2 u hu
            omega
        · have hty14 : t.type = 1 ∨ t.type = 4 := by
            rcases hty with h | h | h
            · exact Or.inl h
            · exact absurd h h3
            · exact Or.inr h
          refine ⟨t :: ts, ?_, ?_, ?_, ?_⟩
          · rw [splitLoop_emit _ _ _ _ _ _ _ heq hty14, hts]
          · intro u hu
            rcases List.mem_cons.mp hu with hu | hu
            · subst hu; exact hty14
            · exact hty2 u hu
          · intro u hu
            rcases List.mem_cons.mp hu with hu | hu
            · subst hu; omega
            · have := hidx2 u hu; omega
          · rw [List.map_cons, List.pairwise_cons]
            refine ⟨?_, hpair⟩
            intro a ha
            simp only [List.mem_map] at ha
            obtain ⟨u, hu, hau⟩ := ha
            subst hau
            have := hidx2 u hu
            omega
      · subst hrest; subst hst0
        have hnil2 : splitLoop 0 i [] = .ok [] :=
          splitLoop_stop _ _ _ (by rw [tokenizerNext_nil]; simp)
        refine ⟨[t], ?_, ?_, ?_, by simp⟩
        · rw [splitLoop_emit _ _ _ _ _ _ _ heq (Or.inl hty1), hnil2]
        · intro u hu; simp at hu; subst hu; exact Or.inl hty1
        · intro u hu; simp at hu; subst hu; omega

theorem scanLoop_all_space (prev : Nat) (input : List Char)
    (hsp : ∀ c ∈ input, classifyRune c = spaceRuneClass) :
    ∀ (tok : Token) (co idx : Nat),
    scanLoop prev 0 tok co idx input =
      .ok (if prev = 7 ∨ 0 < co + input.length then
        some ({ tok with type := 1, Index := idx + input.length }, [],
          idx + input.length, 0)
      else none) := by
  induction input with
  | nil =>
    intro tok co idx
    simp only [scanLoop, List.length_nil, Nat.add_zero]
    by_cases hc : prev = 7 ∨ 0 < co
    · rw [if_pos (show prev = 7 ∨ 1 < co + 1 by omega), if_pos hc]
      cases tok
      simp [Token.removeLastRaw]
    · rw [if_neg (show ¬(prev = 7 ∨ 1 < co + 1) by omega), if_neg hc]
  | cons c cs ih =>
    intro tok co idx
    have hc := hsp c (by simp)
    simp only [scanLoop, hc, ne_eq, not_true_eq_false, ite_false, if_false,
      removeLastRaw_rawAppend]
    rw [ih (fun x hx => hsp x (List.mem_cons_of_mem _ hx)) tok (co + 1) (idx + 1)]
    have h1 : co + 1 + cs.length = co + (c :: cs).length := by
      simp only [List.length_cons]; omega
    have h2 : idx + 1 + cs.length = idx + (c :: cs).length := by
      simp only [List.length_cons]; omega
    rw [h1, h2]


theorem scanLoop_inWord (prev : Nat) (input : List Char) :
    ∀ (hpl : ∀ c ∈ input, plainOrSpace c) (tok : Token) (co idx : Nat),
    scanLoop prev 1 tok co idx input =
      .ok (some ({ tok with
          Value := tok.Value ++ input.takeWhile otherClassChar,
          RawValue := tok.RawValue ++ input.takeWhile otherClassChar },
        input.dropWhile otherClassChar,
        idx + (input.takeWhile otherClassChar).length, 1)) := by
  induction input with
  | nil =>
    intro hpl tok co idx
    cases tok
    simp [scanLoop, Token.removeLastRaw]
  | cons c cs ih =>
    intro hpl tok co idx
    have hcp : plainOrSpace c := hpl c (by simp)
    simp only [plainOrSpace, Bool.or_eq_true, beq_iff_eq] at hcp
    rcases hcp with hc | hc
    · -- space: the word token is finalized, the space is pushed back
      rw [show (c :: cs).takeWhile otherClassChar = [] by
            simp [List.takeWhile_cons, otherClassChar, hc],
          show (c :: cs).dropWhile otherClassChar = c :: cs by
            simp [List.dropWhile_cons, otherClassChar, hc]]
      cases tok
      simp [scanLoop, hc, Token.removeLastRaw]
    · -- ordinary rune: appended, scan continues
      rw [show (c :: cs).takeWhile otherClassChar = c :: cs.takeWhile otherClassChar by
            simp [List.takeWhile_cons, otherClassChar, hc],
          show (c :: cs).dropWhile otherClassChar = cs.dropWhile otherClassChar by
            simp [List.dropWhile_cons, otherClassChar, hc]]
      simp only [scanLoop, hc]
      rw [ih (fun x hx => hpl x (List.mem_cons_of_mem _ hx)) _ (co + 1) (idx + 1)]
      simp [Token.add, List.length_cons]
      omega

theorem scanLoop_start_space_step (prev : Nat) (c : Char) (cs : List Char)
    (hc : classifyRune c = spaceRuneClass) (tok : Token) (co idx : Nat) :
    scanLoop prev 0 tok co idx (c :: cs) =
      scanLoop prev 0 tok (co + 1) (idx + 1) cs := by
  simp only [scanLoop, hc, ne_eq, not_true_eq_false, ite_false, if_false,
    removeLastRaw_rawAppend]

theorem scanLoop_plain_word (prev : Nat) (sps : List Char) (c : Char) (cs : List Char)
    (hsp : ∀ x ∈ sps, classifyRune x = spaceRuneClass)
    (hc : classifyRune c = unknownRuneClass)
    (hpl : ∀ x ∈ cs, plainOrSpace x) :
    ∀ (co idx : Nat),
    scanLoop prev 0 ⟨0, [], [], 0, 0⟩ co idx (sps ++ c :: cs) =
      .ok (some (⟨1, c :: cs.takeWhile otherClassChar, c :: cs.takeWhile otherClassChar,
        idx + sps.length, 0⟩,
        cs.dropWhile otherClassChar,
        idx + sps.length + 1 + (cs.takeWhile otherClassChar).length, 1)) := by
  induction sps with
  | nil =>
    intro co idx
    simp only [List.nil_append, List.length_nil, Nat.add_zero]
    simp only [scanLoop, hc]
    rw [scanLoop_inWord prev cs hpl _ (co + 1) (idx + 1)]
    simp [Token.add]
  | cons s sps ih =>
    intro co idx
    rw [List.cons_append, scanLoop_start_space_step prev s _ (hsp s (by simp)) _ co idx]
    rw [ih (fun x hx => hsp x (by simp [hx])) (co + 1) (idx + 1)]
    simp only [List.length_cons]
    have h1 : idx + 1 + sps.length = idx + (sps.length + 1) := by omega
    rw [h1]

theorem tokenizerNext_plain_word (prev idx : Nat) (sps : List Char) (c : Char) (cs : List Char)
    (hsp : ∀ x ∈ sps, classifyRune x = spaceRuneClass)
    (hc : classifyRune c = unknownRuneClass)
    (hpl : ∀ x ∈ cs, plainOrSpace x) :
    tokenizerNext prev idx (sps ++ c :: cs) =
      .ok (some (⟨1, c :: cs.takeWhile otherClassChar, c :: cs.takeWhile otherClassChar,
        idx + sps.length, 1⟩,
        cs.dropWhile otherClassChar,
        idx + sps.length + 1 + (cs.takeWhile otherClassChar).length, 1)) := by
  unfold tokenizerNext scanStream
  rw [scanLoop_plain_word prev sps c cs hsp hc hpl 0 idx]

theorem tokenizerNext_all_space (prev idx : Nat) (input : List Char)
    (hsp : ∀ c ∈ input, classifyRune c = spaceRuneClass) :
    tokenizerNext prev idx input =
      .ok (if 0 < input.length ∨ prev = 7 then
        some (⟨1, [], [], idx + input.length, 0⟩, [], idx + input.length, 0)
      else none) := by
  unfold tokenizerNext scanStream
  rw [scanLoop_all_space prev input hsp ⟨0, [], [], 0, 0⟩ 0 idx]
  by_cases hcond : 0 < input.length ∨ prev = 7
  · rw [if_pos (show prev = 7 ∨ 0 < 0 + input.length by omega), if_pos hcond]
  · rw [if_neg (show ¬(prev = 7 ∨ 0 < 0 + input.length) by omega), if_neg hcond]

theorem dropWhile_head_false (p : Char → Bool) (l : List Char) (c : Char) (rest : List Char)
    (h : l.dropWhile p = c :: rest) : p c = false := by
  induction l with
  | nil => simp at h
  | cons x xs ih =>
    rw [List.dropWhile_cons] at h
    by_cases hx : p x = true
    · rw [if_pos hx] at h; exact ih h
    · rw [if_neg hx] at h
      simp only [List.cons.injEq] at h
      obtain ⟨h1, -⟩ := h
      subst h1
      simpa using hx

theorem takeWhile_congr_mem (p q : Char → Bool) (l : List Char)
    (h : ∀ x ∈ l, p x = q x) :
    l.takeWhile p = l.takeWhile q ∧ l.dropWhile p = l.dropWhile q := by
  induction l with
  | nil => simp
  | cons c cs ih =>
    have hc := h c (by simp)
    obtain ⟨h1, h2⟩ := ih (fun x hx => h x (by simp [hx]))
    constructor
    · rw [List.takeWhile_cons, List.takeWhile_cons, hc]
      by_cases hq : q c = true
      · rw [if_pos hq, if_pos hq, h1]
      · rw [if_neg hq, if_neg hq]
    · rw [List.dropWhile_cons, List.dropWhile_cons, hc]
      by_cases hq : q c = true
      · rw [if_pos hq, if_pos hq, h2]
      · rw [if_neg hq, if_neg hq]

theorem wsSplit_nil : wsSplit [] = [] := by
  simp [wsSplit]

theorem wsSplit_cons_pos (c : Char) (l : List Char) (h : notSpaceChar c = true) :
    wsSplit (c :: l) =
      (c :: l.takeWhile notSpaceChar) :: wsSplit (l.dropWhile notSpaceChar) := by
  rw [wsSplit]
  simp [h]

theorem wsSplit_cons_neg (c : Char) (l : List Char) (h : notSpaceChar c = false) :
    wsSplit (c :: l) = wsSplit l := by
  rw [wsSplit]
  simp [h]

theorem wsSplit_append_spaces (sps l : List Char)
    (h : ∀ x ∈ sps, classifyRune x = spaceRuneClass) :
    wsSplit (sps ++ l) = wsSplit l := by
  induction sps with
  | nil => simp
  | cons s ss ih =>
    rw [List.cons_append,
      wsSplit_cons_neg _ _ (by simp [notSpaceChar, h s (by simp)]),
      ih (fun x hx => h x (by simp [hx]))]

theorem endsInSpace_append (l1 l2 : List Char) (h : l2 ≠ []) :
    endsInSpace (l1 ++ l2) = endsInSpace l2 := by
  unfold endsInSpace
  rw [List.getLast?_append_of_ne_nil l1 h]

theorem endsInSpace_true_of (l : List Char) (hne : l ≠ [])
    (h : ∀ x ∈ l, classifyRune x = spaceRuneClass) : endsInSpace l = true := by
  unfold endsInSpace
  rw [List.getLast?_eq_getLast l hne]
  simp [h _ (List.getLast_mem hne)]

theorem endsInSpace_false_of (l : List Char)
    (h : ∀ x ∈ l, classifyRune x = unknownRuneClass) : endsInSpace l = false := by
  unfold endsInSpace
  cases l with
  | nil => rfl
  | cons c cs =>
    rw [List.getLast?_eq_getLast _ (by simp)]
    simp [h _ (List.getLast_mem (by simp))]

theorem splitLoop_plain : ∀ (n : Nat) (input : List Char), input.length ≤ n →
    (∀ c ∈ input, plainOrSpace c) →
    ∀ (prev idx : Nat), prev ≠ 7 →
    ∃ ts, splitLoop prev idx input = .ok ts ∧
      ts.map Token.Value =
        wsSplit input ++ (if endsInSpace input then [[]] else []) ∧
      ∀ t ∈ ts, t.type = 1 := by
  intro n
  induction n with
  | zero =>
    intro input hlen hpl prev idx hprev
    have hnil : input = [] := List.length_eq_zero.mp (by omega)
    subst hnil
    refine ⟨[], splitLoop_stop _ _ _ (by rw [tokenizerNext_nil]; simp [hprev]), ?_, by simp⟩
    simp [wsSplit_nil, endsInSpace]
  | succ n ih =>
    intro input hlen hpl prev idx hprev
    cases hd : input.dropWhile spaceClassChar with
    | nil =>
      have hsp : ∀ x ∈ input, classifyRune x = spaceRuneClass := by
        intro x hx
        have := List.dropWhile_eq_nil_iff.mp hd x hx
        simpa [spaceClassChar] using this
      cases input with
      | nil =>
        refine ⟨[], splitLoop_stop _ _ _ (by rw [tokenizerNext_nil]; simp [hprev]), ?_, by simp⟩
        simp [wsSplit_nil, endsInSpace]
      | cons c cs =>
        have hemit := tokenizerNext_all_space prev idx (c :: cs) hsp
        rw [if_pos (Or.inl (by simp))] at hemit
        have hnil2 : splitLoop 0 (idx + (c :: cs).length) [] = .ok [] :=
          splitLoop_stop _ _ _ (by rw [tokenizerNext_nil]; simp)
        refine ⟨[⟨1, [], [], idx + (c :: cs).length, 0⟩], ?_, ?_, by simp⟩
        · rw [splitLoop_emit _ _ _ _ _ _ _ hemit (Or.inl rfl), hnil2]
        · rw [show wsSplit (c :: cs) = [] by
              have := wsSplit_append_spaces (c :: cs) [] hsp
              simpa [wsSplit_nil] using this,
            endsInSpace_true_of _ (by simp) hsp]
          simp
    | cons c rest2 =>
      have hcfalse : spaceClassChar c = false := dropWhile_head_false _ _ _ _ hd
      have hcmem : c ∈ input := by
        have hmem : c ∈ input.dropWhile spaceClassChar := by rw [hd]; simp
        exact (List.dropWhile_sublist _).subset hmem
      have hcother : classifyRune c = unknownRuneClass := by
        have hp := hpl c hcmem
        simp only [plainOrSpace, Bool.or_eq_true, beq_iff_eq] at hp
        rcases hp with h | h
        · simp [spaceClassChar, h] at hcfalse
        · exact h
      have hdecomp : input = input.takeWhile spaceClassChar ++ c :: rest2 := by
        conv_lhs => rw [← List.takeWhile_append_dropWhile (p := spaceClassChar) (l := input)]
        rw [hd]
      have hsps : ∀ x ∈ input.takeWhile spaceClassChar, classifyRune x = spaceRuneClass := by
        intro x hx
        have := List.mem_takeWhile_imp hx
        simpa [spaceClassChar] using this
      have hrest2pl : ∀ x ∈ rest2, plainOrSpace x := by
        intro x hx
        apply hpl
        rw [hdecomp]
        simp [hx]
      have hemit := tokenizerNext_plain_word prev idx _ c rest2 hsps hcother hrest2pl
      rw [← hdecomp] at hemit
      have hlen2 : input.length =
          (input.takeWhile spaceClassChar).length + 1 + rest2.length := by
        conv_lhs => rw [hdecomp]
        simp only [List.length_append, List.length_cons]
        omega
      have hlen3 : (rest2.dropWhile otherClassChar).length ≤ n := by
        have h1 := length_dropWhile_le otherClassChar rest2
        omega
      have hrest3pl : ∀ x ∈ rest2.dropWhile otherClassChar, plainOrSpace x :=
        fun x hx => hrest2pl x ((List.dropWhile_sublist _).subset hx)
      obtain ⟨ts, hts, hvals, htypes⟩ :=
        ih (rest2.dropWhile otherClassChar) hlen3 hrest3pl 1
          (idx + (input.takeWhile spaceClassChar).length + 1 +
            (rest2.takeWhile otherClassChar).length) (by omega)
      have hcongr := takeWhile_congr_mem otherClassChar notSpaceChar rest2 (by
        intro x hx
        have hp := hrest2pl x hx
        simp only [plainOrSpace, Bool.or_eq_true, beq_iff_eq] at hp
        rcases hp with h | h <;> simp [otherClassChar, notSpaceChar, h])
      refine ⟨⟨1, c :: rest2.takeWhile otherClassChar, c :: rest2.takeWhile otherClassChar,
        idx + (input.takeWhile spaceClassChar).length, 1⟩ :: ts, ?_, ?_, ?_⟩
      · rw [splitLoop_emit _ _ _ _ _ _ _ hemit (Or.inl rfl), hts]
      · rw [List.map_cons, hvals]
        have hws : wsSplit input =
            (c :: rest2.takeWhile otherClassChar) :: wsSplit (rest2.dropWhile otherClassChar) := by
          conv_lhs => rw [hdecomp]
          rw [wsSplit_append_spaces _ _ hsps,
            wsSplit_cons_pos c rest2 (by simp [notSpaceChar, hcother]),
            ← hcongr.1, ← hcongr.2]
        rw [hws]
        cases hr3 : rest2.dropWhile otherClassChar with
        | nil =>
          have hallother : ∀ x ∈ c :: rest2, classifyRune x = unknownRuneClass := by
            intro x hx
            rcases List.mem_cons.mp hx with hx | hx
            · subst hx; exact hcother
            · have : rest2.takeWhile otherClassChar = rest2 := by
                have := List.takeWhile_append_dropWhile (p := otherClassChar) (l := rest2)
                rw [hr3] at this
                simpa using this
              have hxo : otherClassChar x = true := by
                rw [← this] at hx
                exact List.mem_takeWhile_imp hx
              simpa [otherClassChar] using hxo
          rw [show endsInSpace input = false by
              conv_lhs => rw [hdecomp]
              rw [endsInSpace_append _ _ (by simp)]
              exact endsInSpace_false_of _ hallother]
          simp [endsInSpace]
        | cons d rest4 =>
          have hr3ne : rest2.dropWhile otherClassChar ≠ [] := by rw [hr3]; simp
          have hsuffix : input =
              (input.takeWhile spaceClassChar ++ c :: rest2.takeWhile otherClassChar) ++
                rest2.dropWhile otherClassChar := by
            conv_lhs => rw [hdecomp]
            conv_lhs => rw [show rest2 =
              rest2.takeWhile otherClassChar ++ rest2.dropWhile otherClassChar from
              (List.takeWhile_append_dropWhile _ _).symm]
            simp [List.append_assoc]
          rw [show endsInSpace input = endsInSpace (rest2.dropWhile otherClassChar) by
              conv_lhs => rw [hsuffix]
              exact endsInSpace_append _ _ hr3ne]
          rw [hr3]
          simp
      · intro u hu
        rcases List.mem_cons.mp hu with hu | hu
        · subst hu; rfl
        · exact htypes u hu

theorem foldl_currentPipeline_no_pipe (ts : List Token) :
    ∀ acc, (∀ t ∈ ts, t.type ≠ 4) →
    ts.foldl (fun tokens token => if token.type = 4 then [] else tokens ++ [token]) acc =
      acc ++ ts := by
  induction ts with
  | nil => intro acc h; simp
  | cons t ts ih =>
    intro acc h
    simp only [List.foldl_cons]
    rw [if_neg (h t (by simp)), ih _ (fun u hu => h u (by simp [hu]))]
    simp

theorem currentPipeline_no_pipe (ts : List Token) (h : ∀ t ∈ ts, t.type ≠ 4) :
    CurrentPipeline ts = ts := by
  unfold CurrentPipeline
  rw [foldl_currentPipeline_no_pipe ts [] h]
  simp

theorem currentPipeline_after_last (pre post : List Token) (op : Token)
    (hop : op.type = 4) (hpost : ∀ t ∈ post, t.type ≠ 4) :
    CurrentPipeline (pre ++ op :: post) = post := by
  unfold CurrentPipeline
  rw [List.foldl_append]
  simp only [List.foldl_cons]
  rw [if_pos hop, foldl_currentPipeline_no_pipe post [] hpost]
  simp

theorem takeWhile_all_append_stop (p : Char → Bool) (wl : List Char) (c : Char)
    (l : List Char) (h : ∀ x ∈ wl, p x = true) (hc : p c = false) :
    (wl ++ c :: l).takeWhile p = wl ∧ (wl ++ c :: l).dropWhile p = c :: l := by
  induction wl with
  | nil => simp [List.takeWhile_cons, List.dropWhile_cons, hc]
  | cons x xs ih =>
    obtain ⟨h1, h2⟩ := ih (fun y hy => h y (by simp [hy]))
    rw [List.cons_append]
    constructor
    · rw [List.takeWhile_cons, if_pos (h x (by simp)), h1]
    · rw [List.dropWhile_cons, if_pos (h x (by simp)), h2]

theorem takeWhile_all (p : Char → Bool) (wl : List Char) (h : ∀ x ∈ wl, p x = true) :
    wl.takeWhile p = wl ∧ wl.dropWhile p = [] := by
  induction wl with
  | nil => simp
  | cons x xs ih =>
    obtain ⟨h1, h2⟩ := ih (fun y hy => h y (by simp [hy]))
    constructor
    · rw [List.takeWhile_cons, if_pos (h x (by simp)), h1]
    · rw [List.dropWhile_cons, if_pos (h x (by simp)), h2]

theorem wsSplit_word_only (wl : List Char) (hw : wl ≠ [])
    (hall : ∀ x ∈ wl, classifyRune x = unknownRuneClass) : wsSplit wl = [wl] := by
  cases wl with
  | nil => exact absurd rfl hw
  | cons c rest =>
    have hns : ∀ x ∈ c :: rest, notSpaceChar x = true := by
      intro x hx; simp [notSpaceChar, hall x hx]
    obtain ⟨h1, h2⟩ := takeWhile_all notSpaceChar rest (fun y hy => hns y (by simp [hy]))
    rw [wsSplit_cons_pos c rest (hns c (by simp)), h1, h2, wsSplit_nil]

theorem wsSplit_word_sep (wl : List Char) (hw : wl ≠ [])
    (hall : ∀ x ∈ wl, classifyRune x = unknownRuneClass)
    (c : Char) (hc : classifyRune c = spaceRuneClass) (l : List Char) :
    wsSplit (wl ++ c :: l) = wl :: wsSplit l := by
  cases wl with
  | nil => exact absurd rfl hw
  | cons x rest =>
    have hns : ∀ y ∈ x :: rest, notSpaceChar y = true := by
      intro y hy; simp [notSpaceChar, hall y hy]
    obtain ⟨h1, h2⟩ := takeWhile_all_append_stop notSpaceChar rest c l
      (fun y hy => hns y (by simp [hy])) (by simp [notSpaceChar, hc])
    rw [List.cons_append, wsSplit_cons_pos x _ (hns x (by simp)), h1, h2,
      wsSplit_cons_neg c l (by simp [notSpaceChar, hc])]

theorem string_toList_append (a b : String) : (a ++ b).toList = a.toList ++ b.toList := rfl

theorem joinEncode_plain (w : String)
    (h : ∀ c ∈ w.toList, classifyRune c = unknownRuneClass) : joinEncode w = w := by
  unfold joinEncode
  rw [if_neg]
  simp only [List.any_eq_true, not_exists, not_and]
  intro c hc
  simp [isSpecialChar, h c hc]

theorem join_plain_chars : ∀ (ws : List String),
    (∀ w ∈ ws, w ≠ "" ∧ ∀ c ∈ w.toList, classifyRune c = unknownRuneClass) →
    (∀ x ∈ (Join ws).toList, plainOrSpace x) ∧
    wsSplit (Join ws).toList = ws.map String.toList ∧
    endsInSpace (Join ws).toList = false := by
  intro ws
  induction ws with
  | nil =>
    intro h
    refine ⟨by simp [Join], ?_, rfl⟩
    simp [Join, wsSplit_nil]
  | cons w ws ih =>
    intro h
    obtain ⟨hwne, hwpl⟩ := h w (by simp)
    have hwlne : w.toList ≠ [] := fun hc => hwne (String.ext hc)
    cases ws with
    | nil =>
      rw [show Join [w] = w from by
        rw [show Join [w] = joinEncode w from rfl, joinEncode_plain w hwpl]]
      refine ⟨?_, ?_, ?_⟩
      · intro x hx; simp [plainOrSpace, hwpl x hx]
      · rw [wsSplit_word_only _ hwlne hwpl]; simp
      · exact endsInSpace_false_of _ hwpl
    | cons v rest =>
      obtain ⟨hpl2, hws2, hend2⟩ := ih (fun u hu => h u (by simp [hu]))
      have hJlne : (Join (v :: rest)).toList ≠ [] := by
        intro hc
        rw [hc, wsSplit_nil] at hws2
        simp at hws2
      have hJoin : Join (w :: v :: rest) = joinEncode w ++ " " ++ Join (v :: rest) := rfl
      rw [hJoin, joinEncode_plain w hwpl]
      have htl : (w ++ " " ++ Join (v :: rest)).toList =
          w.toList ++ ' ' :: (Join (v :: rest)).toList := by
        rw [string_toList_append, string_toList_append]
        simp
      rw [htl]
      refine ⟨?_, ?_, ?_⟩
      · intro x hx
        rcases List.mem_append.mp hx with hx | hx
        · simp [plainOrSpace, hwpl x hx]
        · rcases List.mem_cons.mp hx with hx | hx
          · subst hx; simp [plainOrSpace]
            decide
          · exact hpl2 x hx
      · rw [wsSplit_word_sep _ hwlne hwpl ' ' (by decide) _, hws2]
        simp
      · rw [show w.toList ++ ' ' :: (Join (v :: rest)).toList =
            (w.toList ++ [' ']) ++ (Join (v :: rest)).toList by simp]
        rw [endsInSpace_append _ _ hJlne]
        exact hend2

/-- C1 counterexample: the input consisting of a double quote followed by a
space ends in whitespace, yet `Split` returns a single Word token with value
`" "` (the space lies inside the unterminated quote), not a trailing empty
word at offset 2. -/
theorem C1_counterexample :
    Split (String.mk ['"', ' ']) = .ok [⟨1, [' '], ['"', ' '], 0, 4⟩] ∧
    (⟨1, [' '], ['"', ' '], 0, 4⟩ : Token).Value ≠ [] ∧
    (⟨1, [' '], ['"', ' '], 0, 4⟩ : Token).Index ≠ 2 := by
  refine ⟨?_, by decide, by decide⟩
  show splitLoop 0 0 ['"', ' '] = _
  rw [splitLoop_emit 0 0 ['"', ' '] ⟨1, [' '], ['"', ' '], 0, 4⟩ [] 2 4
    (by decide) (Or.inl rfl)]
  rw [splitLoop_stop 4 2 [] (by decide)]

/-- C1 (amended): when a scan reaches end-of-input while still in the Start
state — i.e. the remaining input is all whitespace — the tokenizer emits one
synthetic empty Word token at the post-input cursor offset iff at least one
character was consumed on this scan or the previous token ended in the
PipelineOperator state; otherwise it signals end-of-input with no token. -/
theorem C1_start_eof_rule (prev idx : Nat) (cs : List Char)
    (hsp : ∀ c ∈ cs, classifyRune c = spaceRuneClass) :
    tokenizerNext prev idx cs =
      .ok (if 0 < cs.length ∨ prev = PIPELINE_STATE then
        some (⟨WORD_TOKEN, [], [], idx + cs.length, START_STATE⟩, [],
          idx + cs.length, START_STATE)
      else none) :=
  tokenizerNext_all_space prev idx cs hsp

/-- C1 witness: concrete instances of the end-of-input rule — two spaces
emit the empty token at the cursor; empty remainder after a non-pipeline
token yields EOF; empty remainder after a pipeline token emits the token. -/
theorem C1_start_eof_rule_witness :
    tokenizerNext 5 3 [' ', ' '] = .ok (some (⟨1, [], [], 5, 0⟩, [], 5, 0)) ∧
    tokenizerNext 5 3 [] = .ok none ∧
    tokenizerNext 7 3 [] = .ok (some (⟨1, [], [], 3, 0⟩, [], 3, 0)) := by
  refine ⟨?_, ?_, ?_⟩
  · have h := C1_start_eof_rule 5 3 [' ', ' '] (by decide)
    rw [if_pos (Or.inl (by decide))] at h
    exact h
  · have h := C1_start_eof_rule 5 3 [] (by decide)
    rw [if_neg (by decide)] at h
    exact h
  · have h := C1_start_eof_rule 7 3 [] (by decide)
    rw [if_pos (Or.inr (by decide))] at h
    exact h

/-- C2: `Split` succeeds on every input string (there are no read failures on
an in-memory string and malformed quoting is tolerated), and in particular
splitting a double quote followed by `abc` (an unterminated quote) yields
exactly one Word token with value `abc`. -/
theorem C2_split_total_and_tolerant :
    (∀ s : String, ∃ ts, Split s = .ok ts) ∧
    Split (String.mk ['"', 'a', 'b', 'c']) =
      .ok [⟨1, ['a', 'b', 'c'], ['"', 'a', 'b', 'c'], 0, 4⟩] := by
  constructor
  · intro s
    obtain ⟨ts, hts, -, -, -⟩ := splitLoop_sound s.toList.length s.toList (le_refl _) 0 0
    exact ⟨ts, hts⟩
  · show splitLoop 0 0 ['"', 'a', 'b', 'c'] = _
    rw [splitLoop_emit 0 0 ['"', 'a', 'b', 'c']
      ⟨1, ['a', 'b', 'c'], ['"', 'a', 'b', 'c'], 0, 4⟩ [] 4 4 (by decide) (Or.inl rfl)]
    rw [splitLoop_stop 4 4 [] (by decide)]

/-- C5: evaluating the tokenizer on the input `#a` (a comment terminated by
end-of-input) shows that the emitted Comment token's `RawValue` is `#a`
followed by a NUL rune — the zero rune appended by the failed `ReadRune` is
never trimmed in the COMMENT_STATE end-of-input branch — and therefore is not
the exact source substring `#a`. -/
theorem C5_comment_eof_raw :
    tokenizerNext 0 0 ['#', 'a'] =
      .ok (some (⟨3, ['a'], ['#', 'a', Char.ofNat 0], 0, 6⟩, [], 2, 6)) ∧
    ['#', 'a', Char.ofNat 0] ≠ ['#', 'a'] := by
  exact ⟨by decide, by decide⟩

/-- C8: consecutive pipeline-operator characters accumulate into one token —
`Split "a || b"` contains a single PipelineOperator token with value `||` —
and, in the PipelineOperator state, a pipeline-class rune is accumulated
while any other rune finalizes the token (trimmed from `RawValue`) and is
pushed back unconsumed. -/
theorem C8_operator_grouping :
    Split (String.mk ['a', ' ', '|', '|', ' ', 'b']) =
      .ok [⟨1, ['a'], ['a'], 0, 1⟩, ⟨4, ['|', '|'], ['|', '|'], 2, 7⟩,
        ⟨1, ['b'], ['b'], 5, 1⟩] ∧
    (∀ (prev : Nat) (tok : Token) (co idx : Nat) (c : Char) (rest : List Char),
      classifyRune c ≠ pipelineRuneClass →
      scanLoop prev 7 tok co idx (c :: rest) = .ok (some (tok, c :: rest, idx, 7))) ∧
    (∀ (prev : Nat) (tok : Token) (co idx : Nat) (c : Char) (rest : List Char),
      classifyRune c = pipelineRuneClass →
      scanLoop prev 7 tok co idx (c :: rest) =
        scanLoop prev 7 (Token.add { tok with RawValue := tok.RawValue ++ [c] } c)
          (co + 1) (idx + 1) rest) := by
  refine ⟨?_, ?_, ?_⟩
  · show splitLoop 0 0 ['a', ' ', '|', '|', ' ', 'b'] = _
    rw [splitLoop_emit 0 0 ['a', ' ', '|', '|', ' ', 'b'] ⟨1, ['a'], ['a'], 0, 1⟩
      [' ', '|', '|', ' ', 'b'] 1 1 (by decide) (Or.inl rfl)]
    rw [splitLoop_emit 1 1 [' ', '|', '|', ' ', 'b'] ⟨4, ['|', '|'], ['|', '|'], 2, 7⟩
      [' ', 'b'] 4 7 (by decide) (Or.inr rfl)]
    rw [splitLoop_emit 7 4 [' ', 'b'] ⟨1, ['b'], ['b'], 5, 1⟩ [] 6 1
      (by decide) (Or.inl rfl)]
    rw [splitLoop_stop 1 6 [] (by decide)]
  · intro prev tok co idx c rest hcls
    cases hc : classifyRune c <;> (try exact absurd hc (classifyRune_ne_eof c)) <;>
      first
        | exact absurd hc hcls
        | (simp only [scanLoop, hc, removeLastRaw_rawAppend]
           simp)
  · intro prev tok co idx c rest hcls
    simp only [scanLoop, hcls]

/-- C8 witness: in the PipelineOperator state, a space finalizes the pending
token with pushback, and a second pipe accumulates. -/
theorem C8_operator_grouping_witness :
    scanLoop 0 7 ⟨4, ['|'], ['|'], 0, 0⟩ 1 1 [' '] =
      .ok (some (⟨4, ['|'], ['|'], 0, 0⟩, [' '], 1, 7)) ∧
    scanLoop 0 7 ⟨4, ['|'], ['|'], 0, 0⟩ 1 1 ['|'] =
      scanLoop 0 7 (Token.add ⟨4, ['|'], ['|', '|'], 0, 0⟩ '|') 2 2 [] := by
  constructor
  · exact C8_operator_grouping.2.1 0 ⟨4, ['|'], ['|'], 0, 0⟩ 1 1 ' ' [] (by decide)
  · exact C8_operator_grouping.2.2 0 ⟨4, ['|'], ['|'], 0, 0⟩ 1 1 '|' [] (by decide)

/-- C3: `CurrentPipeline` returns exactly the tokens after the last
PipelineOperator token (each pipeline token resets the accumulator), returns
the whole sequence when no pipeline token is present, and on
`Split "a | b | c"` yields exactly the values `["c"]`. -/
theorem C3_currentPipeline_spec :
    (∀ (pre post : List Token) (op : Token), op.type = PIPELINE_TOKEN →
      (∀ t ∈ post, t.type ≠ PIPELINE_TOKEN) →
      CurrentPipeline (pre ++ op :: post) = post) ∧
    (∀ ts : List Token, (∀ t ∈ ts, t.type ≠ PIPELINE_TOKEN) →
      CurrentPipeline ts = ts) ∧
    (∃ ts, Split (String.mk ['a', ' ', '|', ' ', 'b', ' ', '|', ' ', 'c']) = .ok ts ∧
      Strings (CurrentPipeline ts) = [String.mk ['c']]) := by
  refine ⟨currentPipeline_after_last, currentPipeline_no_pipe, ?_⟩
  refine ⟨[⟨1, ['a'], ['a'], 0, 1⟩, ⟨4, ['|'], ['|'], 2, 7⟩, ⟨1, ['b'], ['b'], 4, 1⟩,
    ⟨4, ['|'], ['|'], 6, 7⟩, ⟨1, ['c'], ['c'], 8, 1⟩], ?_, by decide⟩
  show splitLoop 0 0 ['a', ' ', '|', ' ', 'b', ' ', '|', ' ', 'c'] = _
  rw [splitLoop_emit 0 0 ['a', ' ', '|', ' ', 'b', ' ', '|', ' ', 'c']
    ⟨1, ['a'], ['a'], 0, 1⟩ [' ', '|', ' ', 'b', ' ', '|', ' ', 'c'] 1 1
    (by decide) (Or.inl rfl)]
  rw [splitLoop_emit 1 1 [' ', '|', ' ', 'b', ' ', '|', ' ', 'c']
    ⟨4, ['|'], ['|'], 2, 7⟩ [' ', 'b', ' ', '|', ' ', 'c'] 3 7
    (by decide) (Or.inr rfl)]
  rw [splitLoop_emit 7 3 [' ', 'b', ' ', '|', ' ', 'c']
    ⟨1, ['b'], ['b'], 4, 1⟩ [' ', '|', ' ', 'c'] 5 1 (by decide) (Or.inl rfl)]
  rw [splitLoop_emit 1 5 [' ', '|', ' ', 'c']
    ⟨4, ['|'], ['|'], 6, 7⟩ [' ', 'c'] 7 7 (by decide) (Or.inr rfl)]
  rw [splitLoop_emit 7 7 [' ', 'c']
    ⟨1, ['c'], ['c'], 8, 1⟩ [] 9 1 (by decide) (Or.inl rfl)]
  rw [splitLoop_stop 1 9 [] (by decide)]

/-- C3 witness: the characterization applied to a concrete three-token
sequence with one pipeline token, and to a pipeline-free sequence. -/
theorem C3_currentPipeline_spec_witness :
    CurrentPipeline [⟨1, ['a'], ['a'], 0, 1⟩, ⟨4, ['|'], ['|'], 2, 7⟩,
      ⟨1, ['c'], ['c'], 4, 1⟩] = [⟨1, ['c'], ['c'], 4, 1⟩] ∧
    CurrentPipeline [⟨1, ['a'], ['a'], 0, 1⟩] = [⟨1, ['a'], ['a'], 0, 1⟩] := by
  constructor
  · exact C3_currentPipeline_spec.1 [⟨1, ['a'], ['a'], 0, 1⟩]
      [⟨1, ['c'], ['c'], 4, 1⟩] ⟨4, ['|'], ['|'], 2, 7⟩ rfl (by decide)
  · exact C3_currentPipeline_spec.2.1 [⟨1, ['a'], ['a'], 0, 1⟩] (by decide)

/-- C4 counterexample: `#` contains no quote, escape or operator character,
yet `Split "#"`.strings() is `[]` (the comment token is discarded) while `#`
split on whitespace is `["#"]`; the input does not end in whitespace, so the
trailing-empty-word allowance does not apply. -/
theorem C4_counterexample :
    Split (String.mk ['#']) = .ok [] ∧
    wsSplit ['#'] = [['#']] ∧
    endsInSpace ['#'] = false ∧
    ([] : List String) ≠ [String.mk ['#']] ∧
    ([] : List String) ≠ [String.mk ['#'], String.mk []] := by
  refine ⟨?_, ?_, by decide, by decide, by decide⟩
  · show splitLoop 0 0 ['#'] = _
    rw [splitLoop_skip 0 0 ['#'] ⟨3, [], ['#', Char.ofNat 0], 0, 6⟩ [] 1 6
      (by decide) rfl]
    rw [splitLoop_stop 6 1 [] (by decide)]
  · rw [wsSplit_cons_pos '#' [] (by decide)]
    simp [wsSplit_nil]

/-- C4 (amended): for every input containing no quote, escape, operator or
comment character, `split(s).strings()` equals `s` split on runs of
whitespace with empty strings removed, plus exactly one trailing empty word
iff `s` ends in a whitespace character. -/
theorem C4_plain_split (cs : List Char) (hpl : ∀ c ∈ cs, plainOrSpace c) :
    ∃ ts, Split (String.mk cs) = .ok ts ∧
      Strings ts = (wsSplit cs).map String.mk ++
        (if endsInSpace cs then [String.mk []] else []) := by
  obtain ⟨ts, hts, hvals, -⟩ := splitLoop_plain cs.length cs (le_refl _) hpl 0 0 (by omega)
  refine ⟨ts, hts, ?_⟩
  unfold Strings
  rw [show (ts.map fun t => String.mk t.Value) = (ts.map Token.Value).map String.mk by
    rw [List.map_map]; rfl]
  rw [hvals]
  by_cases he : endsInSpace cs = true
  · rw [if_pos he, if_pos he]
    simp
  · rw [if_neg he, if_neg he]
    simp

/-- C4 witness: the amended plain-input law at `"a b "`, whose strings are
`["a", "b", ""]`. -/
theorem C4_plain_split_witness :
    ∃ ts, Split (String.mk ['a', ' ', 'b', ' ']) = .ok ts ∧
      Strings ts = (wsSplit ['a', ' ', 'b', ' ']).map String.mk ++
        (if endsInSpace ['a', ' ', 'b', ' '] then [String.mk []] else []) :=
  C4_plain_split ['a', ' ', 'b', ' '] (by decide)

/-- C6 counterexample: the empty word contains no shell-special character,
yet the join/split round trip loses it — `Join [""]` is the empty string,
which splits to no tokens at all. -/
theorem C6_counterexample :
    Join [""] = "" ∧
    Split (Join [""]) = .ok [] ∧
    Strings (Words ([] : List Token)) = [] ∧
    ([] : List String) ≠ [""] := by
  refine ⟨rfl, ?_, rfl, by decide⟩
  show splitLoop 0 0 [] = _
  rw [splitLoop_stop 0 0 [] (by decide)]

/-- C6 (amended): for every sequence of nonempty plain words containing no
shell-special (space/quote/escape/comment/pipeline) characters,
`split(join(words)).words().strings()` returns exactly the original words. -/
theorem C6_roundtrip (ws : List String)
    (h : ∀ w ∈ ws, w ≠ "" ∧ ∀ c ∈ w.toList, isSpecialChar c = false) :
    ∃ ts, Split (Join ws) = .ok ts ∧ Strings (Words ts) = ws := by
  have h2 : ∀ w ∈ ws, w ≠ "" ∧ ∀ c ∈ w.toList, classifyRune c = unknownRuneClass := by
    intro w hw
    obtain ⟨h1, hsp⟩ := h w hw
    refine ⟨h1, fun c hc => ?_⟩
    have := hsp c hc
    simpa [isSpecialChar] using this
  obtain ⟨hplain, hws, hend⟩ := join_plain_chars ws h2
  obtain ⟨ts, hts, hvals, htypes⟩ :=
    splitLoop_plain (Join ws).toList.length _ (le_refl _) hplain 0 0 (by omega)
  refine ⟨ts, hts, ?_⟩
  rw [show Words ts = ts from List.filter_eq_self.mpr (fun t ht => by simp [htypes t ht])]
  unfold Strings
  rw [show (ts.map fun t => String.mk t.Value) = (ts.map Token.Value).map String.mk by
    rw [List.map_map]; rfl]
  rw [hvals, hws, hend]
  simp only [Bool.false_eq_true, if_false, List.append_nil, List.map_map]
  rw [show (String.mk ∘ String.toList) = id from funext fun w => rfl, List.map_id]

/-- C6 witness: the round trip at the two plain words `["ab", "c"]`. -/
theorem C6_roundtrip_witness :
    ∃ ts, Split (Join ["ab", "c"]) = .ok ts ∧ Strings (Words ts) = ["ab", "c"] :=
  C6_roundtrip ["ab", "c"] (by decide)

/-- C7: the Lexer path never yields Comment tokens — every token of a
successful `Split` is a Word or PipelineOperator token, never Comment — and
`split("a # comment\nb").strings()` equals `["a", "b"]`. -/
theorem C7_comment_stripping :
    (∀ (s : String) (ts : List Token), Split s = .ok ts →
      ∀ t ∈ ts, t.type ≠ COMMENT_TOKEN) ∧
    (∃ ts, Split (String.mk
        ['a', ' ', '#', ' ', 'c', 'o', 'm', 'm', 'e', 'n', 't', '\n', 'b']) = .ok ts ∧
      Strings ts = [String.mk ['a'], String.mk ['b']]) := by
  constructor
  · intro s ts hts t ht
    obtain ⟨ts2, hts2, hty, -, -⟩ := splitLoop_sound s.toList.length s.toList (le_refl _) 0 0
    have heq : ts = ts2 := by
      have h3 : Except.ok (ε := ScanError) ts = .ok ts2 := hts.symm.trans hts2
      injection h3
    subst heq
    rcases hty t ht with h1 | h1 <;> (rw [h1]; decide)
  · refine ⟨[⟨1, ['a'], ['a'], 0, 1⟩, ⟨1, ['b'], ['b'], 12, 1⟩], ?_, by decide⟩
    show splitLoop 0 0 ['a', ' ', '#', ' ', 'c', 'o', 'm', 'm', 'e', 'n', 't', '\n', 'b'] = _
    rw [splitLoop_emit 0 0 ['a', ' ', '#', ' ', 'c', 'o', 'm', 'm', 'e', 'n', 't', '\n', 'b']
      ⟨1, ['a'], ['a'], 0, 1⟩ [' ', '#', ' ', 'c', 'o', 'm', 'm', 'e', 'n', 't', '\n', 'b'] 1 1
      (by decide) (Or.inl rfl)]
    rw [splitLoop_skip 1 1 [' ', '#', ' ', 'c', 'o', 'm', 'm', 'e', 'n', 't', '\n', 'b']
      ⟨3, [' ', 'c', 'o', 'm', 'm', 'e', 'n', 't'],
        ['#', ' ', 'c', 'o', 'm', 'm', 'e', 'n', 't'], 2, 0⟩ ['b'] 12 0
      (by decide) rfl]
    rw [splitLoop_emit 0 12 ['b'] ⟨1, ['b'], ['b'], 12, 1⟩ [] 13 1
      (by decide) (Or.inl rfl)]
    rw [splitLoop_stop 1 13 [] (by decide)]

/-- C7 witness: the no-Comment-token law applied to the concrete split of
`"a"`. -/
theorem C7_comment_stripping_witness :
    ∀ t ∈ [⟨1, ['a'], ['a'], 0, 1⟩], Token.type t ≠ COMMENT_TOKEN := by
  apply C7_comment_stripping.1 (String.mk ['a'])
  show splitLoop 0 0 ['a'] = _
  rw [splitLoop_emit 0 0 ['a'] ⟨1, ['a'], ['a'], 0, 1⟩ [] 1 1 (by decide) (Or.inl rfl)]
  rw [splitLoop_stop 1 1 [] (by decide)]

/-- C9: a token returned by a scan starting at cursor `idx` has `Index`
equal to `idx` plus the number of leading whitespace runes of the remaining
input — the offset of the token's first non-space code point, which for the
synthetic trailing empty word (whose scan consumes only whitespace) is the
post-input cursor — and consequently the `Index` fields of a `Split` result
are strictly increasing. -/
theorem C9_index_offsets :
    (∀ (prev idx : Nat) (input : List Char) (t : Token) (rest : List Char) (i st : Nat),
      tokenizerNext prev idx input = .ok (some (t, rest, i, st)) →
      t.Index = idx + (input.takeWhile spaceClassChar).length) ∧
    (∀ (s : String) (ts : List Token), Split s = .ok ts →
      (ts.map Token.Index).Pairwise (· < ·)) := by
  constructor
  · exact tokenizerNext_index
  · intro s ts hts
    obtain ⟨ts2, hts2, -, -, hpair⟩ := splitLoop_sound s.toList.length s.toList (le_refl _) 0 0
    have heq : ts = ts2 := by
      have h3 : Except.ok (ε := ScanError) ts = .ok ts2 := hts.symm.trans hts2
      injection h3
    subst heq
    exact hpair

/-- C9 witness: the offset law at a scan of `" a"` from cursor 3, and strict
index increase on the concrete split of `"a b "`. -/
theorem C9_index_offsets_witness :
    (⟨1, ['a'], ['a'], 4, 1⟩ : Token).Index =
      3 + ((' ' :: ['a']).takeWhile spaceClassChar).length ∧
    ([⟨1, ['a'], ['a'], 0, 1⟩, ⟨1, ['b'], ['b'], 2, 1⟩,
        ⟨1, [], [], 4, 0⟩].map Token.Index).Pairwise (· < ·) := by
  constructor
  · exact C9_index_offsets.1 0 3 [' ', 'a'] ⟨1, ['a'], ['a'], 4, 1⟩ [] 5 1 (by decide)
  · apply C9_index_offsets.2 (String.mk ['a', ' ', 'b', ' '])
    show splitLoop 0 0 ['a', ' ', 'b', ' '] = _
    rw [splitLoop_emit 0 0 ['a', ' ', 'b', ' '] ⟨1, ['a'], ['a'], 0, 1⟩ [' ', 'b', ' '] 1 1
      (by decide) (Or.inl rfl)]
    rw [splitLoop_emit 1 1 [' ', 'b', ' '] ⟨1, ['b'], ['b'], 2, 1⟩ [' '] 3 1
      (by decide) (Or.inl rfl)]
    rw [splitLoop_emit 1 3 [' '] ⟨1, [], [], 4, 0⟩ [] 4 0 (by decide) (Or.inl rfl)]
    rw [splitLoop_stop 0 4 [] (by decide)]

/-- C10: the tokenizer never reaches a defect branch — `Tokenizer.Next` never
returns an error on an in-memory input, every emitted token has type
WORD_TOKEN, COMMENT_TOKEN or PIPELINE_TOKEN with the machine state among the
eight defined states, and `Split` always terminates successfully. -/
theorem C10_no_defect_branches :
    (∀ (prev idx : Nat) (input : List Char) (e : ScanError),
      tokenizerNext prev idx input ≠ .error e) ∧
    (∀ (prev idx : Nat) (input : List Char) (t : Token) (rest : List Char) (i st : Nat),
      tokenizerNext prev idx input = .ok (some (t, rest, i, st)) →
      (t.type = WORD_TOKEN ∨ t.type = COMMENT_TOKEN ∨ t.type = PIPELINE_TOKEN) ∧
        st ≤ PIPELINE_STATE) ∧
    (∀ s : String, ∃ ts, Split s = .ok ts) := by
  refine ⟨?_, ?_, ?_⟩
  · intro prev idx input e h
    rcases tokenizerNext_cases prev idx input with hn | ⟨t, rest, i, st, heq, -⟩
    · rw [h] at hn; exact Except.noConfusion hn
    · rw [h] at heq; exact Except.noConfusion heq
  · intro prev idx input t rest i st h
    rcases tokenizerNext_cases prev idx input with hn | ⟨t2, rest2, i2, st2, heq, hty, hst, -⟩
    · rw [h] at hn; simp at hn
    · rw [h] at heq
      simp only [Except.ok.injEq, Option.some.injEq, Prod.mk.injEq] at heq
      obtain ⟨h1, -, -, h4⟩ := heq
      subst h1
      subst h4
      exact ⟨hty, hst⟩
  · intro s
    obtain ⟨ts, hts, -, -, -⟩ := splitLoop_sound s.toList.length s.toList (le_refl _) 0 0
    exact ⟨ts, hts⟩

/-- C10 witness: no error and the type/state bounds at a concrete scan. -/
theorem C10_no_defect_branches_witness :
    tokenizerNext 0 0 ['a'] ≠ .error (.unexpectedState 8) ∧
    ((⟨1, ['a'], ['a'], 0, 1⟩ : Token).type = WORD_TOKEN ∨
      (⟨1, ['a'], ['a'], 0, 1⟩ : Token).type = COMMENT_TOKEN ∨
      (⟨1, ['a'], ['a'], 0, 1⟩ : Token).type = PIPELINE_TOKEN) ∧ 1 ≤ PIPELINE_STATE := by
  refine ⟨C10_no_defect_branches.1 0 0 ['a'] (.unexpectedState 8), ?_⟩
  exact C10_no_defect_branches.2.1 0 0 ['a'] ⟨1, ['a'], ['a'], 0, 1⟩ [] 1 1 (by decide)
